import Mathlib

/-!
Verification of the StealthCrawler / Recon crawler core against its code.

This file shallowly embeds the parts of the Python source that the claims
touch: the URL normalizer (both variants present in `utils.py`), domain
extraction, the scope engine (`scope_manager.py`), the adaptive rate limiter
(`rate_limiter.py`), the orchestrator enqueue / seed-injection path
(`main.py`), the stealth worker loop (`stealth_crawler.py`) as a small-step
system, and the checkpoint store (`checkpoint.py` plus the resume path of
`main.py`).

Strings are modelled as `List Char` (the ASCII fragment of Python `str`:
`lower`, percent-coding and label classes are modelled at the byte level for
code points below 128, which covers every URL the development evaluates).
The model of `urllib.parse` is total: it omits the `ValueError` raised on
mismatched IPv6 brackets in a netloc, a case none of the claims touch.
-/

/-- Character lists standing for Python strings (ASCII fragment). -/
abbrev Chars := List Char

/-- Python `str.lower` on one ASCII character. -/
def pyLowChar (c : Char) : Char :=
  if 65 ≤ c.toNat ∧ c.toNat ≤ 90 then Char.ofNat (c.toNat + 32) else c

/-- Python `str.lower` (ASCII fragment). -/
def pyLow (s : Chars) : Chars := s.map pyLowChar

/-- Python whitespace stripped by `str.strip`. -/
def pySpaceChar (c : Char) : Bool :=
  c = ' ' ∨ c = Char.ofNat 9 ∨ c = Char.ofNat 10 ∨ c = Char.ofNat 13 ∨
    c = Char.ofNat 11 ∨ c = Char.ofNat 12

/-- Python `str.strip` (both ends). -/
def pyStrip (s : Chars) : Chars :=
  ((s.dropWhile pySpaceChar).reverse.dropWhile pySpaceChar).reverse

def isAsciiAlphaCh (c : Char) : Bool :=
  (97 ≤ c.toNat ∧ c.toNat ≤ 122) ∨ (65 ≤ c.toNat ∧ c.toNat ≤ 90)

def isAsciiDigitCh (c : Char) : Bool :=
  48 ≤ c.toNat ∧ c.toNat ≤ 57

/-- `urllib.parse.scheme_chars`: letters, digits and `+`, `-`, `.`. -/
def isSchemeChar (c : Char) : Bool :=
  isAsciiAlphaCh c || isAsciiDigitCh c || c = '+' || c = '-' || c = '.'

/-- Split at the first occurrence of `sep`: Python `s.split(sep, 1)`.
Returns the part before and, when `sep` occurs, the part after it. -/
def breakAtChar (sep : Char) : Chars → Chars × Option Chars
  | [] => ([], none)
  | c :: rest =>
    if c = sep then ([], some rest)
    else
      match breakAtChar sep rest with
      | (pre, post) => (c :: pre, post)

/-- Split at the last occurrence of `sep` (`none` when `sep` is absent). -/
def rbreakAtChar (sep : Char) (s : Chars) : Option (Chars × Chars) :=
  match breakAtChar sep s.reverse with
  | (_, none) => none
  | (pre, some post) => some (post.reverse, pre.reverse)

/-- `urllib.parse._splitnetloc`: take characters up to `/`, `?` or `#`. -/
def spanNetloc : Chars → Chars × Chars
  | [] => ([], [])
  | c :: rest =>
    if c = '/' ∨ c = '?' ∨ c = '#' then ([], c :: rest)
    else
      match spanNetloc rest with
      | (n, r) => (c :: n, r)

/-- `urlsplit` removes ASCII tab, carriage return and newline from its input. -/
def removeUnsafeBytes (s : Chars) : Chars :=
  s.filter (fun c => ¬(c = Char.ofNat 9 ∨ c = Char.ofNat 13 ∨ c = Char.ofNat 10))

/-- `urlsplit` first strips leading WHATWG C0 control and space characters
(code points up to 0x20) from the URL. -/
def lstripControl (s : Chars) : Chars :=
  s.dropWhile (fun c => c.toNat ≤ 32)

/-- Result record of `urllib.parse.urlsplit`. -/
structure UrlSplitResult where
  scheme : Chars
  netloc : Chars
  path : Chars
  query : Chars
  fragment : Chars
deriving DecidableEq, Repr

/-- The scheme step of `urlsplit`: at the first `:`, when the part before it
is a nonempty alpha-led run of scheme characters, the scheme is that part
lowercased; otherwise there is no scheme. -/
def splitSchemeStep (url : Chars) : Chars × Chars :=
  match breakAtChar ':' url with
  | (pre, some post) =>
    if pre ≠ [] ∧ isAsciiAlphaCh (pre.headD 'a') ∧ pre.tail.all isSchemeChar
    then (pyLow pre, post) else ([], url)
  | (_, none) => ([], url)

/-- The netloc step of `urlsplit`: only after a leading `//`. -/
def splitNetlocStep : Chars → Chars × Chars
  | '/' :: '/' :: r2 => spanNetloc r2
  | r => ([], r)

/-- Split at the first `sep` as `urlsplit` does for `#` and `?`: the second
component is empty when `sep` does not occur. -/
def breakDrop (sep : Char) (s : Chars) : Chars × Chars :=
  match breakAtChar sep s with
  | (pre, some post) => (pre, post)
  | (pre, none) => (pre, [])

/-- `urllib.parse.urlsplit`: strip leading controls, remove unsafe bytes,
then scheme, netloc after a leading `//`, the fragment after the first `#`,
and the query after the first `?`. -/
def urlsplitPy (url0 : Chars) : UrlSplitResult :=
  let url := removeUnsafeBytes (lstripControl url0)
  let sr := splitSchemeStep url
  let nr := splitNetlocStep sr.2
  let rf := breakDrop '#' nr.2
  let pq := breakDrop '?' rf.1
  ⟨sr.1, nr.1, pq.1, pq.2, rf.2⟩

/-- Result record of `urllib.parse.urlparse` (path split from params). -/
structure UrlParseResult where
  scheme : Chars
  netloc : Chars
  path : Chars
  params : Chars
  query : Chars
  fragment : Chars
deriving DecidableEq, Repr

/-- `urllib.parse._splitparams`: split `;params` off the last path segment. -/
def splitParamsPy (p : Chars) : Chars × Chars :=
  match rbreakAtChar '/' p with
  | some (before, after) =>
    (match breakAtChar ';' after with
     | (x, some y) => (before ++ '/' :: x, y)
     | (_, none) => (p, []))
  | none =>
    (match breakAtChar ';' p with
     | (x, some y) => (x, y)
     | (_, none) => (p, []))

/-- `urllib.parse.uses_params`: the schemes for which `urlparse` splits
`;params` off the path. -/
def usesParams : List Chars :=
  [[], ("ftp").data, ("hdl").data, ("prospero").data, ("http").data,
   ("imap").data, ("https").data, ("shttp").data, ("rtsp").data,
   ("rtsps").data, ("rtspu").data, ("sip").data, ("sips").data, ("mms").data,
   ("sftp").data, ("tel").data]

/-- `urllib.parse.urlparse`: split, then split params off the path when the
scheme uses params and the path contains `;`. -/
def urlparsePy (url : Chars) : UrlParseResult :=
  let r := urlsplitPy url
  let pp :=
    if r.scheme ∈ usesParams ∧ ';' ∈ r.path then splitParamsPy r.path
    else (r.path, [])
  ⟨r.scheme, r.netloc, pp.1, pp.2, r.query, r.fragment⟩

/-- `urllib.parse.uses_netloc`: the schemes for which `urlunsplit` emits a
`//` authority part even when the netloc is empty. -/
def usesNetloc : List Chars :=
  [[], ("ftp").data, ("http").data, ("gopher").data, ("nntp").data,
   ("telnet").data, ("imap").data, ("wais").data, ("file").data, ("mms").data,
   ("https").data, ("shttp").data, ("snews").data, ("prospero").data,
   ("rtsp").data, ("rtsps").data, ("rtspu").data, ("rsync").data, ("svn").data,
   ("svn+ssh").data, ("sftp").data, ("nfs").data, ("git").data,
   ("git+ssh").data, ("ws").data, ("wss").data]

/-- `urllib.parse.urlunsplit`: emit `//netloc` when the netloc is truthy, or
when the scheme is truthy, uses a netloc, and the path does not already start
with `//`. -/
def urlunsplitPy (scheme netloc path query fragment : Chars) : Chars :=
  let url := path
  let url :=
    if netloc ≠ [] ∨ (scheme ≠ [] ∧ scheme ∈ usesNetloc ∧ url.take 2 ≠ ['/', '/']) then
      let u2 := if url ≠ [] ∧ url.headD '/' ≠ '/' then '/' :: url else url
      '/' :: '/' :: (netloc ++ u2)
    else url
  let url := if scheme ≠ [] then scheme ++ ':' :: url else url
  let url := if query ≠ [] then url ++ '?' :: query else url
  let url := if fragment ≠ [] then url ++ '#' :: fragment else url
  url

/-- `urllib.parse.urlunparse`. -/
def urlunparsePy (scheme netloc path params query fragment : Chars) : Chars :=
  urlunsplitPy scheme netloc (if params ≠ [] then path ++ ';' :: params else path)
    query fragment

/-- `utils.get_domain` (HEAD variant of `utils.py`): the lowercased netloc of
the parsed URL, or `None` when it is empty. -/
def getDomain (url : Chars) : Option Chars :=
  let n := (urlsplitPy url).netloc
  if n = [] then none else some (pyLow n)

/-- Python `str.rstrip("/")`. -/
def rstripSlash (s : Chars) : Chars :=
  (s.reverse.dropWhile (fun c => c = '/')).reverse

/-- `utils.normalize_url`, HEAD variant: reassemble with lowercased scheme and
netloc, path defaulted to `/`, fragment dropped; then strip trailing slashes
when the string ends in `/` and the reparsed path is longer than one char. -/
def normalizeUrlHead (url : Chars) : Chars :=
  let p := urlparsePy url
  let normalized :=
    urlunparsePy (pyLow p.scheme) (pyLow p.netloc)
      (if p.path = [] then ['/'] else p.path) p.params p.query []
  if normalized.getLast? = some '/' ∧ 1 < (urlparsePy normalized).path.length
  then rstripSlash normalized else normalized

/-- `utils.is_valid_url`, HEAD variant: truthy scheme and netloc. -/
def isValidUrlHead (url : Chars) : Bool :=
  let p := urlsplitPy url
  !p.scheme.isEmpty && !p.netloc.isEmpty

/-- `utils.is_valid_url`, main variant: scheme in `http`/`https` and truthy
netloc. -/
def isValidUrlMain (url : Chars) : Bool :=
  let p := urlsplitPy url
  (p.scheme = ("http").data ∨ p.scheme = ("https").data) && !p.netloc.isEmpty

/-- Split on every occurrence of `sep` (Python `s.split(sep)`), so the result
is never empty and joining its groups with `sep` restores the input. -/
def splitOnChar (sep : Char) : Chars → List Chars
  | [] => [[]]
  | c :: rest =>
    match splitOnChar sep rest with
    | [] => [[c]]
    | g :: gs => if c = sep then [] :: g :: gs else (c :: g) :: gs

/-- Join groups with `sep` between them; inverse of `splitOnChar`. -/
def joinChar (sep : Char) : List Chars → Chars
  | [] => []
  | [g] => g
  | g :: g2 :: gs => g ++ sep :: joinChar sep (g2 :: gs)

def hexDigitVal (c : Char) : Option Nat :=
  if 48 ≤ c.toNat ∧ c.toNat ≤ 57 then some (c.toNat - 48)
  else if 97 ≤ c.toNat ∧ c.toNat ≤ 102 then some (c.toNat - 87)
  else if 65 ≤ c.toNat ∧ c.toNat ≤ 70 then some (c.toNat - 55)
  else none

/-- `urllib.parse.unquote`: decode `%XY` escapes; malformed escapes are kept
literally. Byte level, faithful for decoded values below 128. -/
def pctDecode : Chars → Chars
  | [] => []
  | '%' :: a :: b :: rest =>
    match hexDigitVal a, hexDigitVal b with
    | some x, some y => Char.ofNat (16 * x + y) :: pctDecode rest
    | _, _ => '%' :: pctDecode (a :: b :: rest)
  | c :: rest => c :: pctDecode rest

/-- `urllib.parse.unquote_plus`: `+` becomes space, then `%XY` decoding. -/
def unquotePlus (s : Chars) : Chars :=
  pctDecode (s.map (fun c => if c = '+' then ' ' else c))

/-- `urllib.parse.parse_qsl(qs, keep_blank_values=True)`: split the query on
`&`, skip empty fields, split each field at the first `=` (missing value
becomes the empty string), and unquote names and values. -/
def parseQslKeepBlank (qs : Chars) : List (Chars × Chars) :=
  ((splitOnChar '&' qs).filter (fun f => f ≠ [])).map (fun field =>
    match breakAtChar '=' field with
    | (name, some value) => (unquotePlus name, unquotePlus value)
    | (name, none) => (unquotePlus name, []))

/-- Append a value under a key, preserving first-occurrence key order, as a
Python dict of lists does. -/
def addQsPair (k : Chars) (v : Chars) : List (Chars × List Chars) → List (Chars × List Chars)
  | [] => [(k, [v])]
  | (k0, vs) :: rest =>
    if k0 = k then (k0, vs ++ [v]) :: rest else (k0, vs) :: addQsPair k v rest

/-- `urllib.parse.parse_qs(qs, keep_blank_values=True)`. -/
def parseQsKeepBlank (qs : Chars) : List (Chars × List Chars) :=
  (parseQslKeepBlank qs).foldl (fun acc kv => addQsPair kv.1 kv.2 acc) []

/-- Python string `<` (lexicographic by code point). -/
def charsLt : Chars → Chars → Bool
  | [], [] => false
  | [], _ :: _ => true
  | _ :: _, [] => false
  | a :: as, b :: bs =>
    if a.toNat < b.toNat then true
    else if a.toNat = b.toNat then charsLt as bs
    else false

def sortedInsertByKey (x : Chars × List Chars) :
    List (Chars × List Chars) → List (Chars × List Chars)
  | [] => [x]
  | y :: ys => if charsLt x.1 y.1 then x :: y :: ys else y :: sortedInsertByKey x ys

/-- Python `sorted(d.items())` on a dict (keys are distinct, so comparing the
keys decides). -/
def sortPairsByKey (l : List (Chars × List Chars)) : List (Chars × List Chars) :=
  l.foldr sortedInsertByKey []

def upHexDigit (n : Nat) : Char :=
  if n < 10 then Char.ofNat (48 + n) else Char.ofNat (55 + n)

/-- `urllib.parse.quote_plus` on one character: alphanumerics and `_.-~` kept,
space becomes `+`, the rest `%XY` with uppercase hex (byte level). -/
def quotePlusChar (c : Char) : Chars :=
  if isAsciiAlphaCh c ∨ isAsciiDigitCh c ∨ c = '_' ∨ c = '.' ∨ c = '-' ∨ c = '~' then [c]
  else if c = ' ' then ['+']
  else ['%', upHexDigit (c.toNat / 16 % 16), upHexDigit (c.toNat % 16)]

def quotePlus (s : Chars) : Chars := (s.map quotePlusChar).flatten

/-- `urllib.parse.urlencode(pairs, doseq=True)`. -/
def urlencodeSeq (l : List (Chars × List Chars)) : Chars :=
  joinChar '&' (l.flatMap (fun kv => kv.2.map (fun v => quotePlus kv.1 ++ '=' :: quotePlus v)))

/-- Collapse runs of `/` to a single `/` (`re.sub(r"/+", "/", path)`). -/
def collapseSlashesAux : Bool → Chars → Chars
  | _, [] => []
  | prevSlash, c :: rest =>
    if c = '/' then
      if prevSlash then collapseSlashesAux true rest
      else '/' :: collapseSlashesAux true rest
    else c :: collapseSlashesAux false rest

def collapseSlashes (s : Chars) : Chars := collapseSlashesAux false s

/-- `utils.normalize_url`, main variant: lowercase and strip the whole URL,
drop default ports, default and collapse the path, re-encode the query with
keys sorted, drop params and fragment. -/
def normalizeUrlMain (url : Chars) : Chars :=
  let p := urlparsePy (pyLow (pyStrip url))
  let netloc :=
    if List.isSuffixOf ([':', '8', '0']) p.netloc ∧ p.scheme = ("http").data then
      p.netloc.take (p.netloc.length - 3)
    else if List.isSuffixOf ([':', '4', '4', '3']) p.netloc ∧ p.scheme = ("https").data then
      p.netloc.take (p.netloc.length - 4)
    else p.netloc
  let path := if p.path = [] then ['/'] else p.path
  let path := if path.headD '/' ≠ '/' then '/' :: path else path
  let path := collapseSlashes path
  let query :=
    if p.query = [] then []
    else urlencodeSeq (sortPairsByKey (parseQsKeepBlank p.query))
  urlunparsePy p.scheme netloc path [] query []

/-- A character allowed inside the label class `[a-z0-9\-]` of the wildcard
regexes built by `ScopeManager._pattern_to_regex`. -/
def labelChar (c : Char) : Bool :=
  (97 ≤ c.toNat ∧ c.toNat ≤ 122) || isAsciiDigitCh c || c = '-'

/-- One DNS label as matched by `[a-z0-9]([a-z0-9\-]*[a-z0-9])?`: nonempty,
label characters only, no hyphen at either end. -/
def validLabel (l : Chars) : Bool :=
  !l.isEmpty && l.all labelChar && !(l.headD '-' = '-') && !(l.getLastD '-' = '-')

/-- The `(label\.)+` part of the deep-wildcard regex: a nonempty run of
`label.` chunks. -/
def labelDotRun (p : Chars) : Bool :=
  let parts := splitOnChar '.' p
  decide (parts.getLast? = some []) && !parts.dropLast.isEmpty &&
    parts.dropLast.all validLabel

/-- Host matching of the compiled regex for a `**.base` pattern
(`([a-z0-9]([a-z0-9\-]*[a-z0-9])?\.)+` followed by the escaped base, under
`fullmatch`): the host must end with `base` and the remaining prefix must be a
nonempty run of `label.` chunks.  `base` is a plain lowercase hostname, so
escaping only affects its dots. -/
def deepMatches (base h : Chars) : Bool :=
  decide (base.length < h.length) &&
    decide (h.drop (h.length - base.length) = base) &&
    labelDotRun (h.take (h.length - base.length))

/-- Host matching of the compiled regex for a `*.base` pattern
(`[a-z0-9]([a-z0-9\-]*[a-z0-9])?\.` followed by the escaped base, under
`fullmatch`): exactly one label, a dot, then `base`. -/
def singleMatches (base h : Chars) : Bool :=
  decide (base.length + 1 < h.length) &&
    decide (h.drop (h.length - base.length - 1) = '.' :: base) &&
    validLabel (h.take (h.length - base.length - 1))

/-- A scope rule as `ScopeManager` stores it: an exact domain (kept in the
`*_domains` sets) or a compiled `*.base` / `**.base` wildcard (kept in the
`*_regexes` lists). -/
inductive ScopePattern where
  | exact (domain : Chars)
  | single (base : Chars)
  | deep (base : Chars)
deriving DecidableEq, Repr

def patMatches (h : Chars) : ScopePattern → Bool
  | .exact d => h = d
  | .single b => singleMatches b h
  | .deep b => deepMatches b h

/-- The rule state of a `ScopeManager`: the in-scope and out-of-scope pattern
lists (each pattern lowercased on add). -/
structure ScopeState where
  inPatterns : List ScopePattern
  outPatterns : List ScopePattern
deriving DecidableEq, Repr

/-- `ScopeManager._matches_in_scope`: exact-domain membership or any in-scope
regex fullmatch. -/
def matchesInScope (sm : ScopeState) (domain : Chars) : Bool :=
  sm.inPatterns.any (patMatches domain)

/-- `ScopeManager._matches_out_of_scope`. -/
def matchesOutScope (sm : ScopeState) (domain : Chars) : Bool :=
  sm.outPatterns.any (patMatches domain)

/-- `ScopeManager.is_in_scope`, parameterized by the `normalize_url` variant
in use: normalize, extract the domain (`False` when there is none), check
exclusions first, then let everything through when no include rules exist,
else require an include match. -/
def isInScopeWith (norm : Chars → Chars) (sm : ScopeState) (url : Chars) : Bool :=
  let u := norm url
  match getDomain u with
  | none => false
  | some domain =>
    if matchesOutScope sm domain then false
    else if sm.inPatterns.isEmpty then true
    else matchesInScope sm domain

/-- A character of a plain relative reference: printable (code point above
32, so untouched by stripping and unsafe-byte removal) and none of `:`
(code 58), `#` (35), `?` (63) or `;` (59), the characters at which `urlparse`
splits off scheme, fragment, query and params. -/
def plainRelChar (c : Char) : Bool :=
  32 < c.toNat ∧ c.toNat ≠ 58 ∧ c.toNat ≠ 35 ∧ c.toNat ≠ 63 ∧ c.toNat ≠ 59

/-- A plain relative reference — e.g. a relative path like `relative/path` or
a schemeless host-like string like `x.y`: nonempty, made of plain characters,
and neither starting nor ending with `/` (so `urlparse` finds no scheme and
no netloc in it, and trailing-slash stripping does not apply). -/
def plainRelative (s : Chars) : Bool :=
  !s.isEmpty && s.all plainRelChar &&
    !(s.headD '/' = '/') && !(s.getLastD '/' = '/')

/-- State of `rate_limiter.RateLimiter`.  Intervals are rationals standing for
Python floats; every operation a claim touches (doubling, `min` with 60) is
exact on floats, so the rational model is faithful there. -/
structure RateLimiterState where
  minInterval : ℚ
  currentInterval : ℚ
  errorCount : ℕ
  successCount : ℕ
  adaptive : Bool
deriving DecidableEq, Repr

/-- `RateLimiter.__init__(requests_per_second, adaptive)`. -/
def mkRateLimiter (rps : ℚ) (adaptive : Bool) : RateLimiterState :=
  { minInterval := 1 / rps, currentInterval := 1 / rps,
    errorCount := 0, successCount := 0, adaptive := adaptive }

/-- `RateLimiter.report_success`: bump the success streak, clear the error
count, and after ten successes shorten the interval by 10 percent (floored at
`min_interval`). -/
def reportSuccess (s : RateLimiterState) : RateLimiterState :=
  let s1 := { s with successCount := s.successCount + 1, errorCount := 0 }
  if s1.adaptive ∧ 10 ≤ s1.successCount then
    { s1 with currentInterval := max s1.minInterval (s1.currentInterval * (9 / 10)),
              successCount := 0 }
  else s1

/-- `RateLimiter.report_error(status_code)`: bump the error count, clear the
success streak; on 429 or a truthy 5xx status set
`current_interval = min(60, min_interval * 2 ** min(error_count, 5))` with the
already-incremented error count. -/
def reportError (s : RateLimiterState) (statusCode : Option ℤ) : RateLimiterState :=
  let s1 := { s with errorCount := s.errorCount + 1, successCount := 0 }
  match statusCode with
  | none => s1
  | some c =>
    if c = 429 ∨ (¬c = 0 ∧ 500 ≤ c ∧ c < 600) then
      { s1 with currentInterval := min 60 (s1.minInterval * 2 ^ min s1.errorCount 5) }
    else s1

/-- The dedup state of `main.CrawlState`: the in-memory visited set, the
disk-backed `URLCache`, and the asyncio queue (FIFO, back is newest). -/
structure CrawlQueueState where
  visitedUrls : List Chars
  urlCache : List Chars
  urlQueue : List Chars
deriving DecidableEq, Repr

/-- `URLCache.add`. -/
def cacheAdd (cache : List Chars) (u : Chars) : List Chars :=
  if u ∈ cache then cache else cache ++ [u]

/-- `CrawlState.enqueue`: normalize, and when the canonical URL is in neither
the visited set nor the cache, add it to both and push it; otherwise leave the
state unchanged.  The body runs without suspension points in asyncio (the
unbounded queue put never blocks), so it is one atomic step. -/
def CrawlQueueState.enqueue (norm : Chars → Chars) (st : CrawlQueueState)
    (url : Chars) : CrawlQueueState :=
  let u := norm url
  if u ∉ st.visitedUrls ∧ u ∉ st.urlCache then
    { visitedUrls := u :: st.visitedUrls, urlCache := cacheAdd st.urlCache u,
      urlQueue := st.urlQueue ++ [u] }
  else st

/-- Seed injection of `ReconOrchestrator.crawl_main` (step 1): for each start
URL, normalize it, and enqueue it when it is in scope. -/
def seedUrls (norm : Chars → Chars) (sm : ScopeState) (urls : List Chars)
    (st : CrawlQueueState) : CrawlQueueState :=
  urls.foldl (fun acc url =>
    let normalized := norm url
    if isInScopeWith norm sm normalized then acc.enqueue norm normalized else acc) st

/-- The message of the `SystemExit` raised when no URL survives scope
filtering. -/
def fatalScopeMsg : Chars :=
  ("Fatal: No URLs to crawl. Scope filters may be too strict.").data

/-- Steps 1 and 2 of `ReconOrchestrator.crawl_main`: seed the queue, then fail
fast with `SystemExit` when its size is zero. -/
def crawlMainSeedCheck (norm : Chars → Chars) (sm : ScopeState)
    (urls : List Chars) (st : CrawlQueueState) : Except Chars CrawlQueueState :=
  let st1 := seedUrls norm sm urls st
  if st1.urlQueue.isEmpty then Except.error fatalScopeMsg else Except.ok st1

/-- Process termination as CPython maps it: a clean return exits 0, and an
uncaught `SystemExit` carrying a non-int object (here the message string)
prints it and exits 1. -/
inductive PyExit where
  | normal
  | systemExitMsg (msg : Chars)
deriving DecidableEq, Repr

def exitCodeOf : PyExit → ℕ
  | .normal => 0
  | .systemExitMsg _ => 1

/-- The exit produced by the seed phase: `SystemExit(message)` on an empty
queue, otherwise the crawl proceeds. -/
def seedCheckExit (r : Except Chars CrawlQueueState) : PyExit :=
  match r with
  | .error m => .systemExitMsg m
  | .ok _ => .normal

/-- State of a `StealthCrawler` run: the work queue of `(url, depth)` pairs,
items a worker has pulled off the queue (via `wait_for(queue.get(), ...)`) but
not yet visited-checked, the visited set, items whose fetch is in flight
(visited-marked, result not yet appended), and the append-only results list
recording `(url, success)` for each page record. -/
structure StealthState where
  queue : List (Chars × ℕ)
  pending : List (Chars × ℕ)
  visited : List Chars
  inflight : List (Chars × ℕ)
  results : List (Chars × Bool)
deriving DecidableEq, Repr

/-- `StealthCrawler.crawl` seed loop: normalize each start URL and put the
in-scope ones on the queue at depth 0 — without touching the visited set. -/
def stealthInit (norm : Chars → Chars) (sm : ScopeState)
    (seeds : List Chars) : StealthState :=
  { queue := seeds.filterMap (fun url =>
      let n := norm url
      if isInScopeWith norm sm n then some (n, 0) else none),
    pending := [], visited := [], inflight := [], results := [] }

/-- The synchronous block of `StealthCrawler._worker` between resuming from
the dequeue and the first await: skip the item when its URL is already
visited, otherwise insert the URL into the visited set and start its fetch.
There is no suspension point between the membership test and the insert, so
this is one atomic step. -/
def stealthVisitedCheck (s : StealthState) (item : Chars × ℕ) : StealthState :=
  if item.1 ∈ s.visited then { s with pending := s.pending.erase item }
  else { s with pending := s.pending.erase item,
                visited := item.1 :: s.visited,
                inflight := item :: s.inflight }

/-- The link-enqueue loop at the end of `_worker`: when the depth bound allows
and the fetch succeeded, normalize each discovered link and queue those that
are unvisited and in scope, at depth + 1. -/
def stealthLinkItems (norm : Chars → Chars) (sm : ScopeState) (maxDepth : ℕ)
    (s : StealthState) (depth : ℕ) (success : Bool)
    (links : List Chars) : List (Chars × ℕ) :=
  if depth < maxDepth ∧ success then
    links.filterMap (fun link =>
      let n := norm link
      if n ∉ s.visited ∧ isInScopeWith norm sm n then some (n, depth + 1) else none)
  else []

/-- Completion of a fetch in `_worker`: append the page record, then run the
link-enqueue loop (both without intervening suspension points). -/
def stealthFinish (norm : Chars → Chars) (sm : ScopeState) (maxDepth : ℕ)
    (s : StealthState) (item : Chars × ℕ) (success : Bool)
    (links : List Chars) : StealthState :=
  { s with inflight := s.inflight.erase item,
           results := s.results ++ [(item.1, success)],
           queue := s.queue ++ stealthLinkItems norm sm maxDepth s item.2 success links }

/-- One scheduler step of the worker pool.  The fetch outcome (`success`,
`links`) is universally quantified: it is an oracle for whatever the page
returned. -/
inductive StealthStep (norm : Chars → Chars) (sm : ScopeState) (maxDepth : ℕ) :
    StealthState → StealthState → Prop
  | dequeue (s : StealthState) (item : Chars × ℕ) (rest : List (Chars × ℕ)) :
      s.queue = item :: rest →
      StealthStep norm sm maxDepth s
        { s with queue := rest, pending := s.pending ++ [item] }
  | check (s : StealthState) (item : Chars × ℕ) :
      item ∈ s.pending →
      StealthStep norm sm maxDepth s (stealthVisitedCheck s item)
  | finish (s : StealthState) (item : Chars × ℕ) (success : Bool)
      (links : List Chars) :
      item ∈ s.inflight →
      StealthStep norm sm maxDepth s (stealthFinish norm sm maxDepth s item success links)

/-- Reachability under interleaved worker steps. -/
inductive StealthReach (norm : Chars → Chars) (sm : ScopeState) (maxDepth : ℕ) :
    StealthState → StealthState → Prop
  | refl (s : StealthState) : StealthReach norm sm maxDepth s s
  | tail {s t u : StealthState} : StealthReach norm sm maxDepth s t →
      StealthStep norm sm maxDepth t u → StealthReach norm sm maxDepth s u

/-- The dedup invariant of a `StealthCrawler` run: result URLs are distinct,
every recorded or in-flight URL is visited, in-flight URLs are distinct, and
no in-flight URL has been recorded yet. -/
structure StealthInv (s : StealthState) : Prop where
  resNodup : (s.results.map Prod.fst).Nodup
  resVisited : ∀ r ∈ s.results, r.1 ∈ s.visited
  infNodup : (s.inflight.map Prod.fst).Nodup
  infVisited : ∀ p ∈ s.inflight, p.1 ∈ s.visited
  infFresh : ∀ p ∈ s.inflight, p.1 ∉ s.results.map Prod.fst

/-- Python dict assignment `d[k] = v` on an association list: overwrite in
place or append.  This is how `ReconOrchestrator` stores page records
(`self.state.results[url] = result`). -/
def dictSet {α : Type} : List (Chars × α) → Chars → α → List (Chars × α)
  | [], k, v => [(k, v)]
  | (k0, v0) :: rest, k, v =>
    if k0 = k then (k, v) :: rest else (k0, v0) :: dictSet rest k v

/-- The checkpoint snapshot `CrawlState.save_checkpoint` writes: visited URLs,
the queue contents, the result keys, the checkpoint id, and the `_metadata`
block (`saved_at` timestamp and name) that `CheckpointManager.save` adds. -/
structure CheckpointData where
  visitedUrls : List Chars
  queue : List Chars
  resultKeys : List Chars
  checkpointId : Option Chars
  metadata : Option (Chars × Chars)
deriving DecidableEq, Repr

/-- The checkpoint directory as a path-indexed store of JSON documents. -/
abbrev CheckpointDir := List (Chars × CheckpointData)

def fsWrite (fs : CheckpointDir) (p : Chars) (d : CheckpointData) : CheckpointDir :=
  dictSet fs p d

def fsRead (fs : CheckpointDir) (p : Chars) : Option CheckpointData :=
  match fs.find? (fun e => e.1 = p) with
  | some e => some e.2
  | none => none

def ckptJsonPath (name : Chars) : Chars :=
  ("checkpoints/").data ++ name ++ (".json").data

def ckptPklPath (id : Chars) : Chars :=
  ("checkpoints/").data ++ id ++ (".pkl").data

/-- `CheckpointManager.save(name, state)`: add the `_metadata` block and write
the document to `checkpoints/<name>.json`.  JSON serialization is the
identity on these list/string documents. -/
def checkpointSave (fs : CheckpointDir) (name : Chars) (state : CheckpointData)
    (savedAt : Chars) : CheckpointDir :=
  fsWrite fs (ckptJsonPath name) { state with metadata := some (savedAt, name) }

/-- `CheckpointManager.load(name)`: read `checkpoints/<name>.json`. -/
def checkpointLoad (fs : CheckpointDir) (name : Chars) : Option CheckpointData :=
  fsRead fs (ckptJsonPath name)

/-- The `resume` branch of `main.main`: it first requires
`checkpoints/<id>.pkl` to exist and returns without a state otherwise; only
then does it call `CheckpointManager.load(id)` (which reads the `.json`
file). -/
def resumeLoadState (fs : CheckpointDir) (id : Chars) : Option CheckpointData :=
  if (fsRead fs (ckptPklPath id)).isSome then checkpointLoad fs id else none

/-- Erase the mutable `_metadata` block (its `saved_at` timestamp is the
"modulo mutable timestamps" part of the round-trip). -/
def stripMetadata (d : CheckpointData) : CheckpointData :=
  { d with metadata := none }

/-- Claim C3: for any scope set and any URL, if any exclude rule matches the
(lowercased) hostname the code extracts for the URL, then `is_in_scope`
decides OUT (returns `False`), regardless of the include rules.  This holds
for either `normalize_url` variant, hence for any normalizer. -/
theorem c3_exclusion_priority (norm : Chars → Chars) (sm : ScopeState)
    (url domain : Chars) (hdom : getDomain (norm url) = some domain)
    (hexcl : matchesOutScope sm domain = true) :
    isInScopeWith norm sm url = false := by
  simp only [isInScopeWith]
  rw [hdom]
  simp [hexcl]

/-- Witness for C3: `bad.com` appears in both the include and the exclude
group, and `https://bad.com/x` is decided OUT. -/
theorem c3_exclusion_priority_witness :
    getDomain (normalizeUrlHead (("https://bad.com/x").data)) = some (("bad.com").data) ∧
    matchesOutScope ⟨[ScopePattern.exact (("bad.com").data)], [ScopePattern.exact (("bad.com").data)]⟩ (("bad.com").data) = true ∧
    isInScopeWith normalizeUrlHead ⟨[ScopePattern.exact (("bad.com").data)], [ScopePattern.exact (("bad.com").data)]⟩ (("https://bad.com/x").data) = false :=
  ⟨by decide, by decide,
    c3_exclusion_priority normalizeUrlHead
      ⟨[ScopePattern.exact (("bad.com").data)], [ScopePattern.exact (("bad.com").data)]⟩
      (("https://bad.com/x").data) (("bad.com").data) (by decide) (by decide)⟩

/-- `is_in_scope` returns `False` whenever the domain extraction pipeline
yields nothing. -/
theorem isInScope_domain_none (norm : Chars → Chars) (sm : ScopeState)
    (url : Chars) (h : getDomain (norm url) = none) :
    isInScopeWith norm sm url = false := by
  simp only [isInScopeWith]
  rw [h]

theorem toNat_ofNat_small (n : Nat) (h : n < 55296) : (Char.ofNat n).toNat = n := by
  have hv : n.isValidChar := Or.inl h
  simp [Char.ofNat, hv, Char.ofNatAux, Char.toNat, UInt32.ofNat', UInt32.toNat,
    BitVec.toNat_ofNatLt]

theorem breakAtChar_not_mem (sep : Char) (s : Chars) (h : sep ∉ s) :
    breakAtChar sep s = (s, none) := by
  induction s with
  | nil => rfl
  | cons c cs ih =>
    have hc : c ≠ sep := fun e => h (by simp [e])
    have h2 : sep ∉ cs := fun m => h (by simp [m])
    simp [breakAtChar, hc, ih h2]

theorem breakDrop_not_mem (sep : Char) (s : Chars) (h : sep ∉ s) :
    breakDrop sep s = (s, []) := by
  simp [breakDrop, breakAtChar_not_mem sep s h]

theorem splitSchemeStep_no_colon (s : Chars) (h : ':' ∉ s) :
    splitSchemeStep s = ([], s) := by
  simp [splitSchemeStep, breakAtChar_not_mem ':' s h]

theorem splitNetlocStep_no_dslash (s : Chars) (h : s.take 2 ≠ ['/', '/']) :
    splitNetlocStep s = ([], s) := by
  unfold splitNetlocStep
  split
  · exfalso
    apply h
    simp [List.take]
  · rfl

theorem dropWhile_eq_self_of_false {p : Char → Bool} (s : Chars)
    (h : ∀ c ∈ s, p c = false) : s.dropWhile p = s := by
  cases s with
  | nil => rfl
  | cons c cs => simp [List.dropWhile_cons, h c (List.mem_cons_self c cs)]

theorem lstripControl_eq_self (s : Chars) (h : ∀ c ∈ s, 32 < c.toNat) :
    lstripControl s = s := by
  unfold lstripControl
  apply dropWhile_eq_self_of_false
  intro c hc
  have h32 := h c hc
  simp only [decide_eq_false_iff_not]
  omega

theorem removeUnsafeBytes_eq_self (s : Chars) (h : ∀ c ∈ s, 32 < c.toNat) :
    removeUnsafeBytes s = s := by
  unfold removeUnsafeBytes
  rw [List.filter_eq_self]
  intro c hc
  have h32 := h c hc
  have h9 : c ≠ Char.ofNat 9 := by
    intro e
    rw [e] at h32
    exact absurd h32 (by decide)
  have h13 : c ≠ Char.ofNat 13 := by
    intro e
    rw [e] at h32
    exact absurd h32 (by decide)
  have h10 : c ≠ Char.ofNat 10 := by
    intro e
    rw [e] at h32
    exact absurd h32 (by decide)
  simp [h9, h13, h10]

/-- `urlsplit` of a string with no scheme, fragment or query delimiter and no
leading `//`: everything is the path. -/
theorem urlsplitPy_pathOnly (s : Chars)
    (hns : ∀ c ∈ s, 32 < c.toNat) (hcolon : ':' ∉ s) (hhash : '#' ∉ s)
    (hq : '?' ∉ s) (hds : s.take 2 ≠ ['/', '/']) :
    urlsplitPy s = ⟨[], [], s, [], []⟩ := by
  simp [urlsplitPy, lstripControl_eq_self s hns, removeUnsafeBytes_eq_self s hns,
    splitSchemeStep_no_colon s hcolon, splitNetlocStep_no_dslash s hds,
    breakDrop_not_mem '#' s hhash, breakDrop_not_mem '?' s hq]

theorem urlparsePy_pathOnly (s : Chars)
    (hns : ∀ c ∈ s, 32 < c.toNat) (hcolon : ':' ∉ s) (hhash : '#' ∉ s)
    (hq : '?' ∉ s) (hds : s.take 2 ≠ ['/', '/']) (hsemi : ';' ∉ s) :
    urlparsePy s = ⟨[], [], s, [], [], []⟩ := by
  simp [urlparsePy, urlsplitPy_pathOnly s hns hcolon hhash hq hds, hsemi]

theorem getDomain_pathOnly (s : Chars)
    (hns : ∀ c ∈ s, 32 < c.toNat) (hcolon : ':' ∉ s) (hhash : '#' ∉ s)
    (hq : '?' ∉ s) (hds : s.take 2 ≠ ['/', '/']) :
    getDomain s = none := by
  simp [getDomain, urlsplitPy_pathOnly s hns hcolon hhash hq hds]

theorem plainRelative_spec (s : Chars) (h : plainRelative s = true) :
    s ≠ [] ∧ (∀ c ∈ s, plainRelChar c = true) ∧
      s.headD '/' ≠ '/' ∧ s.getLastD '/' ≠ '/' := by
  simp only [plainRelative, Bool.and_eq_true, List.all_eq_true, Bool.not_eq_true',
    List.isEmpty_eq_false, decide_eq_false_iff_not] at h
  exact ⟨h.1.1.1, h.1.1.2, h.1.2, h.2⟩

theorem plainRelChar_not_mem (s : Chars) (hall : ∀ c ∈ s, plainRelChar c = true) :
    ':' ∉ s ∧ '#' ∉ s ∧ '?' ∉ s ∧ ';' ∉ s ∧ (∀ c ∈ s, 32 < c.toNat) := by
  refine ⟨fun hm => absurd (hall ':' hm) (by decide),
          fun hm => absurd (hall '#' hm) (by decide),
          fun hm => absurd (hall '?' hm) (by decide),
          fun hm => absurd (hall ';' hm) (by decide),
          fun c hc => ?_⟩
  have h1 := hall c hc
  simp only [plainRelChar, Bool.and_eq_true, decide_eq_true_eq] at h1
  exact h1.1

theorem take2_ne_dslash_of_head (s : Chars) (h : s.headD '/' ≠ '/') :
    s.take 2 ≠ ['/', '/'] := by
  rcases s with _ | ⟨c, cs⟩
  · simp
  · intro he
    rw [List.take_succ_cons] at he
    apply h
    show c = '/'
    exact (List.cons_eq_cons.mp he).1

theorem normalizeUrlHead_plain (s : Chars) (h : plainRelative s = true) :
    normalizeUrlHead s = s := by
  obtain ⟨hne, hall, hhd, hlast⟩ := plainRelative_spec s h
  obtain ⟨hcolon, hhash, hq, hsemi, h32⟩ := plainRelChar_not_mem s hall
  have hds := take2_ne_dslash_of_head s hhd
  have hparse : urlparsePy s = ⟨[], [], s, [], [], []⟩ :=
    urlparsePy_pathOnly s h32 hcolon hhash hq hds hsemi
  have hun : urlunparsePy (pyLow []) (pyLow []) (if s = [] then ['/'] else s) [] [] [] = s := by
    rw [if_neg hne]
    show urlunparsePy [] [] s [] [] [] = s
    simp [urlunparsePy, urlunsplitPy]
  have hguard : ¬(s.getLast? = some '/' ∧ 1 < s.length) := by
    rintro ⟨hg, -⟩
    apply hlast
    rw [List.getLastD_eq_getLast?, hg]
    rfl
  simp only [normalizeUrlHead, hparse, hun]
  rw [if_neg hguard]

theorem getDomain_plainRel (s : Chars) (h : plainRelative s = true) :
    getDomain s = none := by
  obtain ⟨hne, hall, hhd, hlast⟩ := plainRelative_spec s h
  obtain ⟨hcolon, hhash, hq, hsemi, h32⟩ := plainRelChar_not_mem s hall
  exact getDomain_pathOnly s h32 hcolon hhash hq (take2_ne_dslash_of_head s hhd)

theorem pyLowChar_plain (c : Char) (h : plainRelChar c = true) :
    plainRelChar (pyLowChar c) = true := by
  simp only [plainRelChar, Bool.and_eq_true, decide_eq_true_eq] at h ⊢
  unfold pyLowChar
  by_cases hc : 65 ≤ c.toNat ∧ c.toNat ≤ 90
  · rw [if_pos hc]
    rw [toNat_ofNat_small (c.toNat + 32) (by omega)]
    omega
  · rw [if_neg hc]
    exact h

theorem pyLowChar_ne_slash (c : Char) (h : c ≠ '/') : pyLowChar c ≠ '/' := by
  unfold pyLowChar
  by_cases hc : 65 ≤ c.toNat ∧ c.toNat ≤ 90
  · rw [if_pos hc]
    intro e
    have h1 : (Char.ofNat (c.toNat + 32)).toNat = c.toNat + 32 :=
      toNat_ofNat_small _ (by omega)
    rw [e] at h1
    have h2 : ('/').toNat = 47 := rfl
    omega
  · rw [if_neg hc]
    exact h

theorem pySpaceChar_false_of_printable (c : Char) (h : 32 < c.toNat) :
    pySpaceChar c = false := by
  cases hq : pySpaceChar c with
  | false => rfl
  | true =>
    exfalso
    simp only [pySpaceChar, Bool.or_eq_true, decide_eq_true_eq] at hq
    rcases hq with e | e | e | e | e | e <;> (rw [e] at h; exact absurd h (by decide))

theorem pyStrip_eq_self (s : Chars) (h : ∀ c ∈ s, 32 < c.toNat) :
    pyStrip s = s := by
  have hp : ∀ c ∈ s, pySpaceChar c = false :=
    fun c hc => pySpaceChar_false_of_printable c (h c hc)
  unfold pyStrip
  rw [dropWhile_eq_self_of_false s hp,
      dropWhile_eq_self_of_false s.reverse (fun c hc => hp c (List.mem_reverse.mp hc)),
      List.reverse_reverse]

theorem collapseSlashesAux_subset (b : Bool) (s : Chars) :
    ∀ c ∈ collapseSlashesAux b s, c ∈ s := by
  induction s generalizing b with
  | nil => simp [collapseSlashesAux]
  | cons x rest ih =>
    intro c hc
    unfold collapseSlashesAux at hc
    by_cases hx : x = '/'
    · rw [if_pos hx] at hc
      cases b with
      | true => exact List.mem_cons_of_mem x (ih true c hc)
      | false =>
        rcases List.mem_cons.mp hc with rfl | hc2
        · rw [hx]
          exact List.mem_cons_self _ _
        · exact List.mem_cons_of_mem x (ih true c hc2)
    · rw [if_neg hx] at hc
      rcases List.mem_cons.mp hc with rfl | hc2
      · exact List.mem_cons_self _ _
      · exact List.mem_cons_of_mem x (ih false c hc2)

theorem collapseSlashesAux_true_head (s : Chars) :
    collapseSlashesAux true s = [] ∨
      ∃ c cs, collapseSlashesAux true s = c :: cs ∧ c ≠ '/' := by
  induction s with
  | nil => exact Or.inl rfl
  | cons x rest ih =>
    by_cases hx : x = '/'
    · simpa [collapseSlashesAux, hx] using ih
    · exact Or.inr ⟨x, collapseSlashesAux false rest, by simp [collapseSlashesAux, hx], hx⟩

theorem getDomain_normalizeUrlMain_plain (s : Chars) (h : plainRelative s = true) :
    getDomain (normalizeUrlMain s) = none := by
  obtain ⟨hne, hall, hhd, hlast⟩ := plainRelative_spec s h
  obtain ⟨hcolon, hhash, hq, hsemi, h32⟩ := plainRelChar_not_mem s hall
  have hlowall : ∀ c ∈ pyLow s, plainRelChar c = true := by
    intro c hc
    obtain ⟨c0, hc0, rfl⟩ := List.mem_map.mp hc
    exact pyLowChar_plain c0 (hall c0 hc0)
  obtain ⟨hcolon2, hhash2, hq2, hsemi2, h322⟩ := plainRelChar_not_mem _ hlowall
  have hlowne : pyLow s ≠ [] := by
    simp [pyLow, hne]
  have hlowhd : (pyLow s).headD '/' ≠ '/' := by
    rcases s with _ | ⟨c, cs⟩
    · exact absurd rfl hne
    · simp only [pyLow, List.map_cons, List.headD_cons] at hhd ⊢
      exact pyLowChar_ne_slash c hhd
  have hds2 := take2_ne_dslash_of_head _ hlowhd
  have hparse : urlparsePy (pyLow s) = ⟨[], [], pyLow s, [], [], []⟩ :=
    urlparsePy_pathOnly _ h322 hcolon2 hhash2 hq2 hds2 hsemi2
  have hstrip : pyStrip s = s := pyStrip_eq_self s h32
  have hcollapse : collapseSlashes ('/' :: pyLow s)
      = '/' :: collapseSlashesAux true (pyLow s) := by
    simp [collapseSlashes, collapseSlashesAux]
  have hnorm : normalizeUrlMain s = '/' :: collapseSlashesAux true (pyLow s) := by
    simp only [normalizeUrlMain, hstrip, hparse]
    rw [if_neg (by decide : ¬(List.isSuffixOf [':', '8', '0'] ([] : Chars) ∧ ([] : Chars) = ("http").data))]
    rw [if_neg (by decide : ¬(List.isSuffixOf [':', '4', '4', '3'] ([] : Chars) ∧ ([] : Chars) = ("https").data))]
    rw [if_neg hlowne]
    rw [if_pos ?hcond]
    case hcond =>
      exact hlowhd
    rw [hcollapse]
    simp [urlunparsePy, urlunsplitPy]
  rw [hnorm]
  have hsub : ∀ c ∈ collapseSlashesAux true (pyLow s), c ∈ pyLow s :=
    collapseSlashesAux_subset true (pyLow s)
  apply getDomain_pathOnly
  · intro c hc
    rcases List.mem_cons.mp hc with rfl | hc2
    · decide
    · exact h322 c (hsub c hc2)
  · intro hm
    rcases List.mem_cons.mp hm with he | hm2
    · exact absurd he (by decide)
    · exact hcolon2 (hsub _ hm2)
  · intro hm
    rcases List.mem_cons.mp hm with he | hm2
    · exact absurd he (by decide)
    · exact hhash2 (hsub _ hm2)
  · intro hm
    rcases List.mem_cons.mp hm with he | hm2
    · exact absurd he (by decide)
    · exact hq2 (hsub _ hm2)
  · rcases collapseSlashesAux_true_head (pyLow s) with he | ⟨c, cs, he, hcne⟩
    · rw [he]
      decide
    · rw [he]
      intro ht
      simp only [List.take] at ht
      injection ht with h1 hrest
      injection hrest with h2 h3
      exact hcne h2

/-- Claim C10: for every input URL from which the code can extract no
hostname (`get_domain` of the normalized URL is `None`), `is_in_scope`
returns `False` whatever the include and exclude patterns are, including an
empty include group; and concretely, every plain relative reference — a
relative path or schemeless host-like string with no `:`/`?`/`#`/`;` and no
leading or trailing slash — is decided OUT by both normalizer variants. -/
theorem c10_no_host_out :
    (∀ (norm : Chars → Chars) (sm : ScopeState) (url : Chars),
      getDomain (norm url) = none → isInScopeWith norm sm url = false) ∧
    (∀ (sm : ScopeState) (url : Chars), plainRelative url = true →
      isInScopeWith normalizeUrlHead sm url = false ∧
      isInScopeWith normalizeUrlMain sm url = false) := by
  refine ⟨fun norm sm url h => isInScope_domain_none norm sm url h,
    fun sm url h => ⟨?_, ?_⟩⟩
  · apply isInScope_domain_none
    rw [normalizeUrlHead_plain url h]
    exact getDomain_plainRel url h
  · exact isInScope_domain_none _ sm url (getDomain_normalizeUrlMain_plain url h)

/-- Witness for C10: the relative path `relative/path` and the schemeless
host-like string `x.y` are decided OUT, under an empty include group and
under a permissive deep-wildcard include, with both normalizer variants. -/
theorem c10_no_host_out_witness :
    getDomain (normalizeUrlHead (("relative/path").data)) = none ∧
    isInScopeWith normalizeUrlHead ⟨[], []⟩ (("relative/path").data) = false ∧
    plainRelative (("x.y").data) = true ∧
    isInScopeWith normalizeUrlHead ⟨[ScopePattern.deep (("x.y").data)], []⟩ (("x.y").data) = false ∧
    isInScopeWith normalizeUrlMain ⟨[ScopePattern.deep (("x.y").data)], []⟩ (("x.y").data) = false :=
  ⟨by decide, c10_no_host_out.1 normalizeUrlHead ⟨[], []⟩ (("relative/path").data) (by decide),
    by decide,
    (c10_no_host_out.2 ⟨[ScopePattern.deep (("x.y").data)], []⟩ (("x.y").data) (by decide)).1,
    (c10_no_host_out.2 ⟨[ScopePattern.deep (("x.y").data)], []⟩ (("x.y").data) (by decide)).2⟩

/-- Counterexample for C5: start a fresh adaptive limiter at 1 rps
(`min_interval = 1`), report three 500 errors (interval 8), then one success
(error counter resets, interval stays 8), then one 429.  The code sets
`current_interval` to `min(60, min_interval * 2**min(error_count, 5)) = 2`,
which is smaller than the previous interval 8, whereas the claim (for either
reading of "consecutive_errors") predicts `min(60, 8 * 2**min(0,5)) = 8` or
`min(60, 8 * 2**min(1,5)) = 16` — the backoff base is `min_interval`, not the
previous `current_interval`. -/
theorem c5_counterexample :
    (reportSuccess (reportError (reportError (reportError (mkRateLimiter 1 true)
      (some 500)) (some 500)) (some 500))).currentInterval = 8 ∧
    (reportError (reportSuccess (reportError (reportError (reportError
      (mkRateLimiter 1 true) (some 500)) (some 500)) (some 500)))
      (some 429)).currentInterval = 2 ∧
    (2 : ℚ) ≠ min 60 (8 * 2 ^ min 0 5) ∧
    (2 : ℚ) ≠ min 60 (8 * 2 ^ min 1 5) := by
  refine ⟨?_, ?_, ?_, ?_⟩ <;>
    norm_num [reportError, reportSuccess, mkRateLimiter, min_def]

/-- Claim C5 as amended: after `report_error(status)` with status 429 or in
[500, 600), `current_interval` equals
`min(60, min_interval * 2**min(consecutive_errors, 5))` where
`consecutive_errors` counts this error too (the base is `min_interval`, not
the previous `current_interval`); and any reported success resets the
consecutive-error counter to zero. -/
theorem c5_backoff (s : RateLimiterState) (c : ℤ)
    (h : c = 429 ∨ (500 ≤ c ∧ c < 600)) :
    (reportError s (some c)).currentInterval
        = min 60 (s.minInterval * 2 ^ min (s.errorCount + 1) 5) ∧
    (reportError s (some c)).errorCount = s.errorCount + 1 ∧
    ∀ t : RateLimiterState, (reportSuccess t).errorCount = 0 := by
  have hcond : c = 429 ∨ (¬c = 0 ∧ 500 ≤ c ∧ c < 600) := by
    rcases h with h | ⟨h1, h2⟩
    · exact Or.inl h
    · exact Or.inr ⟨by omega, h1, h2⟩
  refine ⟨?_, ?_, ?_⟩
  · simp only [reportError]
    rw [if_pos hcond]
  · simp only [reportError]
    rw [if_pos hcond]
  · intro t
    simp only [reportSuccess]
    by_cases ha : t.adaptive ∧ 10 ≤ t.successCount + 1
    · rw [if_pos ha]
    · rw [if_neg ha]

/-- Witness for C5: the amended backoff law instantiated at a fresh 2 rps
limiter reporting a 429. -/
theorem c5_backoff_witness :
    ((429 : ℤ) = 429 ∨ ((500 : ℤ) ≤ 429 ∧ (429 : ℤ) < 600)) ∧
    ((reportError (mkRateLimiter 2 true) (some 429)).currentInterval
        = min 60 ((mkRateLimiter 2 true).minInterval
            * 2 ^ min ((mkRateLimiter 2 true).errorCount + 1) 5) ∧
      (reportError (mkRateLimiter 2 true) (some 429)).errorCount
        = (mkRateLimiter 2 true).errorCount + 1 ∧
      ∀ t : RateLimiterState, (reportSuccess t).errorCount = 0) :=
  ⟨Or.inl rfl, c5_backoff (mkRateLimiter 2 true) 429 (Or.inl rfl)⟩

/-- Claim C6 fails on the code: both `normalize_url` variants violate the
idempotence contract.  HEAD variant at `http://e.com//`: the first pass
rstrips the all-slash path to the empty path, the second pass restores `/`.
Main variant at `http://e.com/?a=%41`: the first pass decodes `%41` to the
uppercase `A`, the second pass lowercases it to `a`. -/
theorem c6_idempotence_fails :
    normalizeUrlHead (("http://e.com//").data) = ("http://e.com").data ∧
    normalizeUrlHead (normalizeUrlHead (("http://e.com//").data)) = ("http://e.com/").data ∧
    normalizeUrlHead (normalizeUrlHead (("http://e.com//").data))
      ≠ normalizeUrlHead (("http://e.com//").data) ∧
    normalizeUrlMain (("http://e.com/?a=%41").data) = ("http://e.com/?a=A").data ∧
    normalizeUrlMain (normalizeUrlMain (("http://e.com/?a=%41").data)) = ("http://e.com/?a=a").data ∧
    normalizeUrlMain (normalizeUrlMain (("http://e.com/?a=%41").data))
      ≠ normalizeUrlMain (("http://e.com/?a=%41").data) := by
  refine ⟨by decide, by decide, by decide, by decide, by decide, by decide⟩

/-- Counterexample for C7: on inputs with a non-http(s) scheme or a missing
host, `normalize_url` (either variant) returns a canonicalized URL — its own
fixed point — instead of any invalid/rejection result; only the separate
`is_valid_url` rejects them. -/
theorem c7_counterexample :
    normalizeUrlMain (("ftp://x.com/").data) = ("ftp://x.com/").data ∧
    normalizeUrlHead (("ftp://x.com/").data) = ("ftp://x.com/").data ∧
    isValidUrlMain (("ftp://x.com/").data) = false ∧
    normalizeUrlMain (("mailto:test").data) = ("mailto:/test").data ∧
    isValidUrlMain (("mailto:test").data) = false := by
  refine ⟨by decide, by decide, by decide, by decide, by decide⟩

/-- Claim C7 as amended: `normalize_url` itself performs no scheme or host
validation (it is total and returns a canonicalized string for every input);
the rejection the spec describes lives in the separate `is_valid_url`, which
in the main variant accepts exactly the URLs whose parsed scheme is `http` or
`https` and whose netloc is nonempty, and in the HEAD variant accepts exactly
those with any nonempty scheme and a nonempty netloc. -/
theorem c7_validation_split (url : Chars) :
    (isValidUrlMain url = true ↔
      ((urlsplitPy url).scheme = ("http").data ∨ (urlsplitPy url).scheme = ("https").data)
        ∧ (urlsplitPy url).netloc ≠ []) ∧
    (isValidUrlHead url = true ↔
      (urlsplitPy url).scheme ≠ [] ∧ (urlsplitPy url).netloc ≠ []) := by
  constructor
  · simp [isValidUrlMain, List.isEmpty_iff]
  · simp [isValidUrlHead, List.isEmpty_iff]

/-- Seed injection adds nothing when every start URL is out of scope. -/
theorem seedUrls_all_out (norm : Chars → Chars) (sm : ScopeState)
    (urls : List Chars) (st : CrawlQueueState)
    (h : ∀ u ∈ urls, isInScopeWith norm sm (norm u) = false) :
    seedUrls norm sm urls st = st := by
  induction urls generalizing st with
  | nil => rfl
  | cons u us ih =>
    have hu : isInScopeWith norm sm (norm u) = false := h u (by simp)
    simp only [seedUrls, List.foldl_cons, hu, Bool.false_eq_true, if_false]
    exact ih st (fun v hv => h v (by simp [hv]))

/-- Counterexample for C8: with seed `https://x.com/` and include
`other.com`, the seed phase raises the scope-too-strict `SystemExit`, and the
process exit code is 1 — not the claimed 2. -/
theorem c8_counterexample :
    crawlMainSeedCheck normalizeUrlHead ⟨[ScopePattern.exact (("other.com").data)], []⟩
      [("https://x.com/").data] ⟨[], [], []⟩ = Except.error fatalScopeMsg ∧
    exitCodeOf (seedCheckExit (crawlMainSeedCheck normalizeUrlHead
      ⟨[ScopePattern.exact (("other.com").data)], []⟩
      [("https://x.com/").data] ⟨[], [], []⟩)) = 1 ∧
    exitCodeOf (seedCheckExit (crawlMainSeedCheck normalizeUrlHead
      ⟨[ScopePattern.exact (("other.com").data)], []⟩
      [("https://x.com/").data] ⟨[], [], []⟩)) ≠ 2 := by
  refine ⟨by rfl, by rfl, by decide⟩

/-- Claim C8 as amended: when no seed URL passes scope filtering (and the
queue starts empty), `crawl_main` fails fast by raising `SystemExit` with the
distinct message `Fatal: No URLs to crawl. Scope filters may be too strict.`,
and the process exits with code 1 (CPython's exit status for a `SystemExit`
carrying a message object) — the code defines no 0/1/2/3 exit-code mapping of
its own. -/
theorem c8_failfast (norm : Chars → Chars) (sm : ScopeState) (urls : List Chars)
    (st : CrawlQueueState) (hq : st.urlQueue = [])
    (hout : ∀ u ∈ urls, isInScopeWith norm sm (norm u) = false) :
    crawlMainSeedCheck norm sm urls st = Except.error fatalScopeMsg ∧
    exitCodeOf (seedCheckExit (crawlMainSeedCheck norm sm urls st)) = 1 := by
  have h1 : seedUrls norm sm urls st = st := seedUrls_all_out norm sm urls st hout
  have h2 : crawlMainSeedCheck norm sm urls st = Except.error fatalScopeMsg := by
    simp only [crawlMainSeedCheck, h1, hq, List.isEmpty_nil, if_true]
  exact ⟨h2, by rw [h2]; rfl⟩

/-- Witness for C8: the fail-fast law instantiated with the main-variant
normalizer, one out-of-scope seed and an empty initial queue. -/
theorem c8_failfast_witness :
    (CrawlQueueState.mk [] [] []).urlQueue = [] ∧
    (∀ u ∈ [("https://x.com/").data],
      isInScopeWith normalizeUrlMain ⟨[ScopePattern.exact (("other.com").data)], []⟩
        (normalizeUrlMain u) = false) ∧
    crawlMainSeedCheck normalizeUrlMain ⟨[ScopePattern.exact (("other.com").data)], []⟩
      [("https://x.com/").data] (CrawlQueueState.mk [] [] []) = Except.error fatalScopeMsg :=
  ⟨rfl, by decide,
    (c8_failfast normalizeUrlMain ⟨[ScopePattern.exact (("other.com").data)], []⟩
      [("https://x.com/").data] (CrawlQueueState.mk [] [] []) rfl (by decide)).1⟩

/-- Looking up the path just written returns the written document. -/
theorem fsRead_fsWrite (fs : CheckpointDir) (p : Chars) (d : CheckpointData) :
    fsRead (fsWrite fs p d) p = some d := by
  induction fs with
  | nil => simp [fsRead, fsWrite, dictSet, List.find?]
  | cons e rest ih =>
    by_cases h : e.1 = p
    · simp [fsRead, fsWrite, dictSet, List.find?, h]
    · simp only [fsWrite, dictSet] at ih ⊢
      rw [if_neg h]
      simpa [fsRead, List.find?, h] using ih

/-- Claim C9: `CheckpointManager` itself round-trips (`load` after `save`
returns the state unchanged except for the added `_metadata` timestamp block,
under the `<id>.json` naming), but the `resume` command of `main` checks for
`checkpoints/<id>.pkl` — a file `save` never writes — and therefore refuses to
load the state that `CheckpointManager.load` would return for that same id. -/
theorem c9_resume_mismatch :
    (∀ (fs : CheckpointDir) (name : Chars) (st : CheckpointData) (now : Chars),
      checkpointLoad (checkpointSave fs name st now) name
        = some { st with metadata := some (now, name) }) ∧
    resumeLoadState (checkpointSave [] (("crawl1").data)
        ⟨[("https://a.com/").data], [("https://a.com/b").data], [], some (("crawl1").data), none⟩
        (("2024-01-01T00:00:00").data)) (("crawl1").data) = none ∧
    checkpointLoad (checkpointSave [] (("crawl1").data)
        ⟨[("https://a.com/").data], [("https://a.com/b").data], [], some (("crawl1").data), none⟩
        (("2024-01-01T00:00:00").data)) (("crawl1").data)
      = some ⟨[("https://a.com/").data], [("https://a.com/b").data], [], some (("crawl1").data),
          some ((("2024-01-01T00:00:00").data), (("crawl1").data))⟩ ∧
    stripMetadata ⟨[("https://a.com/").data], [("https://a.com/b").data], [], some (("crawl1").data),
        some ((("2024-01-01T00:00:00").data), (("crawl1").data))⟩
      = ⟨[("https://a.com/").data], [("https://a.com/b").data], [], some (("crawl1").data), none⟩ := by
  refine ⟨fun fs name st now => fsRead_fsWrite fs (ckptJsonPath name) _, by decide, by decide, by decide⟩

/-- Claim C1 as amended: in the orchestrator, `CrawlState.enqueue` is gated by
one atomic check-then-insert against the visited set AND the disk URL cache —
a canonical URL present in either is silently dropped, otherwise it is added
to both and pushed onto the queue in the same critical section, so on that
path visited entries are created at enqueue time.  In `StealthCrawler`,
however, neither the seed loop nor the link loop inserts into the visited set
(they only test membership); the visited entry is created at dequeue time, by
the worker's check step. -/
theorem c1_mark_at_enqueue (norm : Chars → Chars) (st : CrawlQueueState)
    (url : Chars) (s : StealthState) (item : Chars × ℕ) (sm : ScopeState)
    (maxDepth : ℕ) (success : Bool) (links : List Chars) (seeds : List Chars) :
    CrawlQueueState.enqueue norm st url
        = (if norm url ∈ st.visitedUrls ∨ norm url ∈ st.urlCache then st
           else ⟨norm url :: st.visitedUrls, cacheAdd st.urlCache (norm url),
                 st.urlQueue ++ [norm url]⟩) ∧
    (stealthInit norm sm seeds).visited = [] ∧
    (stealthVisitedCheck s item).visited
        = (if item.1 ∈ s.visited then s.visited else item.1 :: s.visited) ∧
    (stealthFinish norm sm maxDepth s item success links).visited = s.visited := by
  refine ⟨?_, rfl, ?_, rfl⟩
  · by_cases h1 : norm url ∈ st.visitedUrls
    · simp [CrawlQueueState.enqueue, h1]
    · by_cases h2 : norm url ∈ st.urlCache
      · simp [CrawlQueueState.enqueue, h1, h2]
      · simp [CrawlQueueState.enqueue, h1, h2]
  · by_cases h : item.1 ∈ s.visited
    · simp [stealthVisitedCheck, h]
    · simp [stealthVisitedCheck, h]

/-- Counterexample for C1: in `StealthCrawler`, the seed `https://a.com/` is
pushed onto the queue while the visited set stays empty (so the URL was
offered for enqueue, not in Visited, yet not inserted in the same critical
section), and the visited entry appears only when a worker dequeues and
checks the item. -/
theorem c1_counterexample :
    (stealthInit normalizeUrlHead ⟨[], []⟩ [("https://a.com/").data]).queue
        = [((("https://a.com/").data), 0)] ∧
    (stealthInit normalizeUrlHead ⟨[], []⟩ [("https://a.com/").data]).visited = [] ∧
    (stealthVisitedCheck
        { queue := [], pending := [((("https://a.com/").data), 0)],
          visited := [], inflight := [], results := [] }
        ((("https://a.com/").data), 0)).visited = [("https://a.com/").data] := by
  refine ⟨by decide, by decide, by decide⟩

theorem splitOnChar_ne_nil (sep : Char) (s : Chars) : splitOnChar sep s ≠ [] := by
  cases s with
  | nil => simp [splitOnChar]
  | cons c rest =>
    simp only [splitOnChar]
    rcases h : splitOnChar sep rest with _ | ⟨g, gs⟩
    · simp
    · by_cases hc : c = sep <;> simp [hc]

theorem splitOnChar_cons_eq (sep c : Char) (rest : Chars) (g : Chars) (gs : List Chars)
    (h : splitOnChar sep rest = g :: gs) :
    splitOnChar sep (c :: rest)
      = (if c = sep then [] :: g :: gs else (c :: g) :: gs) := by
  simp only [splitOnChar, h]

theorem joinChar_splitOnChar (sep : Char) (s : Chars) :
    joinChar sep (splitOnChar sep s) = s := by
  induction s with
  | nil => simp [splitOnChar, joinChar]
  | cons c rest ih =>
    rcases h : splitOnChar sep rest with _ | ⟨g, gs⟩
    · exact absurd h (splitOnChar_ne_nil sep rest)
    · rw [h] at ih
      rw [splitOnChar_cons_eq sep c rest g gs h]
      by_cases hc : c = sep
      · rw [if_pos hc]
        show ([] : Chars) ++ sep :: joinChar sep (g :: gs) = c :: rest
        rw [List.nil_append, ih, hc]
      · rw [if_neg hc]
        cases gs with
        | nil =>
          show c :: g = c :: rest
          have hg : g = rest := by simpa [joinChar] using ih
          rw [hg]
        | cons g2 gs2 =>
          show (c :: g) ++ sep :: joinChar sep (g2 :: gs2) = c :: rest
          have hg : g ++ sep :: joinChar sep (g2 :: gs2) = rest := by
            simpa [joinChar] using ih
          simp [hg]

theorem splitOnChar_sepFree_append (sep : Char) (l rest : Chars) (h : sep ∉ l) :
    splitOnChar sep (l ++ sep :: rest) = l :: splitOnChar sep rest := by
  induction l with
  | nil =>
    rcases hs : splitOnChar sep rest with _ | ⟨g, gs⟩
    · exact absurd hs (splitOnChar_ne_nil sep rest)
    · rw [List.nil_append, splitOnChar_cons_eq sep sep rest g gs hs, if_pos rfl]
  | cons c l' ih =>
    have hc : c ≠ sep := by
      intro hcc
      exact h (by simp [hcc])
    have h' : sep ∉ l' := fun hm => h (by simp [hm])
    have ih' := ih h'
    rcases hs : splitOnChar sep (l' ++ sep :: rest) with _ | ⟨g, gs⟩
    · exact absurd hs (splitOnChar_ne_nil sep _)
    · rw [hs] at ih'
      rw [List.cons_append, splitOnChar_cons_eq sep c _ g gs hs, if_neg hc]
      rw [show g = l' from (List.cons.injEq _ _ _ _).mp ih' |>.1,
          show gs = splitOnChar sep rest from (List.cons.injEq _ _ _ _).mp ih' |>.2]

theorem splitOnChar_labelRun (sep : Char) (ls : List Chars)
    (h : ∀ l ∈ ls, sep ∉ l) :
    splitOnChar sep ((ls.map (fun l => l ++ [sep])).flatten) = ls ++ [[]] := by
  induction ls with
  | nil => simp [splitOnChar]
  | cons l ls' ih =>
    have h1 : sep ∉ l := h l (by simp)
    have h2 : ∀ x ∈ ls', sep ∉ x := fun x hx => h x (by simp [hx])
    have hflat : (((l :: ls').map (fun l => l ++ [sep])).flatten)
        = l ++ sep :: ((ls'.map (fun l => l ++ [sep])).flatten) := by
      simp
    rw [hflat, splitOnChar_sepFree_append sep l _ h1, ih h2]
    simp

theorem joinChar_concat_nil (sep : Char) (ls : List Chars) :
    joinChar sep (ls ++ [[]]) = (ls.map (fun l => l ++ [sep])).flatten := by
  induction ls with
  | nil => simp [joinChar]
  | cons l ls' ih =>
    cases ls' with
    | nil => simp [joinChar]
    | cons x xs =>
      have hstep : joinChar sep ((l :: x :: xs) ++ [[]])
          = l ++ sep :: joinChar sep ((x :: xs) ++ [[]]) := by
        simp [joinChar]
      rw [hstep, ih]
      simp

theorem validLabel_no_sep (l : Chars) (h : validLabel l = true) : '.' ∉ l := by
  intro hm
  simp only [validLabel, Bool.and_eq_true, List.all_eq_true] at h
  obtain ⟨⟨⟨-, h2⟩, -⟩, -⟩ := h
  exact absurd (h2 '.' hm) (by decide)

theorem labelDotRun_iff (p : Chars) :
    labelDotRun p = true ↔
      (splitOnChar '.' p).getLast? = some [] ∧ (splitOnChar '.' p).dropLast ≠ [] ∧
        ∀ l ∈ (splitOnChar '.' p).dropLast, validLabel l = true := by
  simp [labelDotRun, Bool.and_eq_true, List.all_eq_true, List.isEmpty_eq_false,
    and_assoc]

/-- Counterexample for C4: with include pattern `**.example.com`, the host
`example.com` itself is NOT matched (the compiled regex demands at least one
`label.` chunk before the base), so `https://example.com/` is decided OUT —
while the claim says it is decided IN. -/
theorem c4_counterexample :
    deepMatches (("example.com").data) (("example.com").data) = false ∧
    isInScopeWith normalizeUrlHead ⟨[ScopePattern.deep (("example.com").data)], []⟩
      (("https://example.com/").data) = false := by
  refine ⟨by decide, by decide⟩

/-- Claim C4 as amended: the compiled `**.base` pattern matches a host H iff
H consists of one or more whole `label.` levels followed by `base` — any-depth
subdomains of `base`, but not `base` itself.  In particular, with include
`**.example.com`, the host `x.y.example.com` is decided IN while
`example.com` is decided OUT. -/
theorem c4_deep_wildcard :
    (∀ base h : Chars, deepMatches base h = true ↔
      ∃ ls : List Chars, ls ≠ [] ∧ (∀ l ∈ ls, validLabel l = true) ∧
        h = ((ls.map (fun l => l ++ ['.'])).flatten) ++ base) ∧
    isInScopeWith normalizeUrlHead ⟨[ScopePattern.deep (("example.com").data)], []⟩
      (("https://x.y.example.com/").data) = true ∧
    isInScopeWith normalizeUrlHead ⟨[ScopePattern.deep (("example.com").data)], []⟩
      (("https://example.com/").data) = false := by
  refine ⟨?_, by decide, by decide⟩
  intro base h
  constructor
  · intro hm
    simp only [deepMatches, Bool.and_eq_true, decide_eq_true_eq] at hm
    obtain ⟨⟨hlen, hdrop⟩, hrun⟩ := hm
    rw [labelDotRun_iff] at hrun
    obtain ⟨hlast, hne, hall⟩ := hrun
    set p := h.take (h.length - base.length) with hp
    set parts := splitOnChar '.' p with hparts
    have hpne : parts ≠ [] := splitOnChar_ne_nil '.' p
    have hgl : parts.getLast hpne = [] := by
      have hq := List.getLast?_eq_getLast parts hpne
      rw [hq] at hlast
      exact Option.some_injective _ hlast
    have hsplit : parts.dropLast ++ [[]] = parts := by
      have hq := List.dropLast_append_getLast hpne
      rw [hgl] at hq
      exact hq
    refine ⟨parts.dropLast, hne, hall, ?_⟩
    have hjoin : p = ((parts.dropLast.map (fun l => l ++ ['.'])).flatten) := by
      have h1 : joinChar '.' parts = p := joinChar_splitOnChar '.' p
      rw [← hsplit, joinChar_concat_nil '.' parts.dropLast] at h1
      exact h1.symm
    calc h = h.take (h.length - base.length) ++ h.drop (h.length - base.length) :=
            (List.take_append_drop _ h).symm
      _ = ((parts.dropLast.map (fun l => l ++ ['.'])).flatten) ++ base := by
            rw [← hp, ← hjoin, hdrop]
  · rintro ⟨ls, hne, hall, rfl⟩
    have hdots : ∀ l ∈ ls, '.' ∉ l := fun l hl => validLabel_no_sep l (hall l hl)
    set F := ((ls.map (fun l => l ++ ['.'])).flatten) with hF
    have hFne : F ≠ [] := by
      cases ls with
      | nil => exact absurd rfl hne
      | cons l ls' => simp [hF]
    have hlen : (F ++ base).length - base.length = F.length := by
      simp
    simp only [deepMatches, Bool.and_eq_true, decide_eq_true_eq]
    refine ⟨⟨?_, ?_⟩, ?_⟩
    · have hpos : 0 < F.length := List.length_pos.mpr hFne
      simp only [List.length_append]
      omega
    · rw [hlen, List.drop_left]
    · rw [hlen, List.take_left, labelDotRun_iff,
        splitOnChar_labelRun '.' ls hdots, List.dropLast_concat]
      refine ⟨List.getLast?_concat _, hne, hall⟩
theorem stealthInv_init (norm : Chars → Chars) (sm : ScopeState)
    (seeds : List Chars) : StealthInv (stealthInit norm sm seeds) := by
  constructor <;> simp [stealthInit]

theorem stealthInv_step {norm : Chars → Chars} {sm : ScopeState} {maxDepth : ℕ}
    {s t : StealthState} (h : StealthStep norm sm maxDepth s t)
    (hi : StealthInv s) : StealthInv t := by
  cases h with
  | dequeue item rest hq => exact ⟨hi.1, hi.2, hi.3, hi.4, hi.5⟩
  | check item hp =>
    by_cases hv : item.1 ∈ s.visited
    · have ht : stealthVisitedCheck s item = { s with pending := s.pending.erase item } := by
        simp [stealthVisitedCheck, hv]
      rw [ht]
      exact ⟨hi.1, hi.2, hi.3, hi.4, hi.5⟩
    · have ht : stealthVisitedCheck s item
          = { s with pending := s.pending.erase item,
                     visited := item.1 :: s.visited,
                     inflight := item :: s.inflight } := by
        simp [stealthVisitedCheck, hv]
      rw [ht]
      refine ⟨hi.1, ?_, ?_, ?_, ?_⟩
      · intro r hr
        exact List.mem_cons_of_mem _ (hi.resVisited r hr)
      · simp only [List.map_cons, List.nodup_cons]
        refine ⟨?_, hi.infNodup⟩
        intro hmem
        obtain ⟨p, hpmem, hpeq⟩ := List.mem_map.mp hmem
        exact hv (hpeq ▸ hi.infVisited p hpmem)
      · intro p hp
        rcases List.mem_cons.mp hp with rfl | hp'
        · exact List.mem_cons_self _ _
        · exact List.mem_cons_of_mem _ (hi.infVisited p hp')
      · intro p hp
        rcases List.mem_cons.mp hp with rfl | hp'
        · intro hmem
          obtain ⟨r, hrmem, hreq⟩ := List.mem_map.mp hmem
          exact hv (hreq ▸ hi.resVisited r hrmem)
        · exact hi.infFresh p hp'
  | finish item success links hinf =>
    have hfresh : item.1 ∉ s.results.map Prod.fst := hi.infFresh item hinf
    refine ⟨?_, ?_, ?_, ?_, ?_⟩
    · show ((s.results ++ [(item.1, success)]).map Prod.fst).Nodup
      rw [List.map_append]
      rw [List.nodup_append]
      refine ⟨hi.resNodup, by simp, ?_⟩
      intro a ha hb
      simp only [List.map_cons, List.map_nil, List.mem_singleton] at hb
      subst hb
      exact hfresh ha
    · intro r hr
      rcases List.mem_append.mp hr with hr' | hr'
      · exact hi.resVisited r hr'
      · simp only [List.mem_singleton] at hr'
        subst hr'
        exact hi.infVisited item hinf
    · show ((s.inflight.erase item).map Prod.fst).Nodup
      exact hi.infNodup.sublist (List.Sublist.map _ (List.erase_sublist _ _))
    · intro p hp
      exact hi.infVisited p (List.mem_of_mem_erase hp)
    · intro p hp
      have hpin : p ∈ s.inflight := List.mem_of_mem_erase hp
      have hinfnd : s.inflight.Nodup := hi.infNodup.of_map
      have hpne : p ≠ item := ((List.Nodup.mem_erase_iff hinfnd).mp hp).1
      have hfst : p.1 ≠ item.1 := by
        intro he
        exact hpne (List.inj_on_of_nodup_map hi.infNodup hpin hinf he)
      show p.1 ∉ (s.results ++ [(item.1, success)]).map Prod.fst
      rw [List.map_append]
      intro hmem
      rcases List.mem_append.mp hmem with hm | hm
      · exact hi.infFresh p hpin hm
      · simp only [List.map_cons, List.map_nil, List.mem_singleton] at hm
        exact hfst hm

theorem stealthInv_reach {norm : Chars → Chars} {sm : ScopeState} {maxDepth : ℕ}
    {s t : StealthState} (h : StealthReach norm sm maxDepth s t)
    (hi : StealthInv s) : StealthInv t := by
  induction h with
  | refl => exact hi
  | tail hr hstep ih => exact stealthInv_step hstep ih

/-- Distinct keys bound the number of entries under any one key by one. -/
theorem filter_fst_length_le_one {α : Type} (l : List (Chars × α)) (U : Chars)
    (h : (l.map Prod.fst).Nodup) :
    (l.filter (fun r => r.1 = U)).length ≤ 1 := by
  induction l with
  | nil => simp
  | cons a rest ih =>
    simp only [List.map_cons, List.nodup_cons] at h
    obtain ⟨ha, hrest⟩ := h
    by_cases hU : a.1 = U
    · have hnone : rest.filter (fun r => r.1 = U) = [] := by
        rw [List.filter_eq_nil_iff]
        intro r hr
        simp only [decide_eq_true_eq]
        intro hrU
        exact ha (List.mem_map.mpr ⟨r, hr, by rw [hrU, hU]⟩)
      simp [List.filter_cons, hU, hnone]
    · simpa [List.filter_cons, hU] using ih hrest

theorem dictSet_fst_sub {α : Type} (rs : List (Chars × α)) (k : Chars) (v : α) :
    ∀ x ∈ (dictSet rs k v).map Prod.fst, x ∈ rs.map Prod.fst ∨ x = k := by
  induction rs with
  | nil => simp [dictSet]
  | cons e rest ih =>
    rcases e with ⟨k0, v0⟩
    intro x hx
    by_cases hk : k0 = k
    · simp only [dictSet, if_pos hk, List.map_cons, List.mem_cons] at hx
      simp only [List.map_cons, List.mem_cons]
      rcases hx with rfl | hx
      · exact Or.inr rfl
      · exact Or.inl (Or.inr hx)
    · simp only [dictSet, if_neg hk, List.map_cons, List.mem_cons] at hx
      simp only [List.map_cons, List.mem_cons]
      rcases hx with rfl | hx
      · exact Or.inl (Or.inl rfl)
      · rcases ih x hx with hm | hm
        · exact Or.inl (Or.inr hm)
        · exact Or.inr hm

/-- Python dict assignment keeps the keys distinct. -/
theorem dictSet_keys_nodup {α : Type} (rs : List (Chars × α)) (k : Chars) (v : α)
    (h : (rs.map Prod.fst).Nodup) :
    ((dictSet rs k v).map Prod.fst).Nodup := by
  induction rs with
  | nil => simp [dictSet]
  | cons e rest ih =>
    rcases e with ⟨k0, v0⟩
    simp only [List.map_cons, List.nodup_cons] at h
    obtain ⟨h0, hrest⟩ := h
    by_cases hk : k0 = k
    · simp only [dictSet, if_pos hk, List.map_cons, List.nodup_cons]
      subst hk
      exact ⟨h0, hrest⟩
    · simp only [dictSet, if_neg hk, List.map_cons, List.nodup_cons]
      refine ⟨?_, ih hrest⟩
      intro hmem
      rcases dictSet_fst_sub rest k v k0 hmem with hm | hm
      · exact h0 hm
      · exact hk hm

/-- Claim C2: for every crawl and every canonical URL U, at most one page
record with `url = U` is produced.  In `StealthCrawler`, any state reachable
from seed injection under interleaved worker steps has at most one result per
URL (visited marking at the dequeue check step makes a second fetch of the
same URL impossible).  In the orchestrator, records live in the dict
`state.results[url] = record`, whose keys stay distinct under assignment. -/
theorem c2_at_most_one_record (norm : Chars → Chars) (sm : ScopeState)
    (maxDepth : ℕ) (seeds : List Chars) (s : StealthState)
    (h : StealthReach norm sm maxDepth (stealthInit norm sm seeds) s) :
    (∀ U : Chars, (s.results.filter (fun r => r.1 = U)).length ≤ 1) ∧
    (∀ {α : Type} (rs : List (Chars × α)) (k : Chars) (v : α) (U : Chars),
      (rs.map Prod.fst).Nodup →
      ((dictSet rs k v).filter (fun r => r.1 = U)).length ≤ 1) := by
  constructor
  · intro U
    exact filter_fst_length_le_one s.results U
      (stealthInv_reach h (stealthInv_init norm sm seeds)).resNodup
  · intro α rs k v U hnd
    exact filter_fst_length_le_one _ U (dictSet_keys_nodup rs k v hnd)

/-- Witness for C2: the dedup bound applied to the state reached from seed
`https://a.com/` by a full three-step trace — a worker dequeues the seed,
passes the visited check, and finishes the fetch successfully with one
discovered link. -/
theorem c2_at_most_one_record_witness :
    StealthReach normalizeUrlHead ⟨[], []⟩ 1
      (stealthInit normalizeUrlHead ⟨[], []⟩ [("https://a.com/").data])
      (stealthFinish normalizeUrlHead ⟨[], []⟩ 1
        (stealthVisitedCheck
          { stealthInit normalizeUrlHead ⟨[], []⟩ [("https://a.com/").data] with
              queue := [],
              pending := (stealthInit normalizeUrlHead ⟨[], []⟩
                [("https://a.com/").data]).pending ++ [((("https://a.com/").data), 0)] }
          ((("https://a.com/").data), 0))
        ((("https://a.com/").data), 0) true [("https://a.com/x").data]) ∧
    ((stealthFinish normalizeUrlHead ⟨[], []⟩ 1
        (stealthVisitedCheck
          { stealthInit normalizeUrlHead ⟨[], []⟩ [("https://a.com/").data] with
              queue := [],
              pending := (stealthInit normalizeUrlHead ⟨[], []⟩
                [("https://a.com/").data]).pending ++ [((("https://a.com/").data), 0)] }
          ((("https://a.com/").data), 0))
        ((("https://a.com/").data), 0) true [("https://a.com/x").data]).results.filter
      (fun r => r.1 = ("https://a.com/").data)).length ≤ 1 := by
  have reach : StealthReach normalizeUrlHead ⟨[], []⟩ 1
      (stealthInit normalizeUrlHead ⟨[], []⟩ [("https://a.com/").data])
      (stealthFinish normalizeUrlHead ⟨[], []⟩ 1
        (stealthVisitedCheck
          { stealthInit normalizeUrlHead ⟨[], []⟩ [("https://a.com/").data] with
              queue := [],
              pending := (stealthInit normalizeUrlHead ⟨[], []⟩
                [("https://a.com/").data]).pending ++ [((("https://a.com/").data), 0)] }
          ((("https://a.com/").data), 0))
        ((("https://a.com/").data), 0) true [("https://a.com/x").data]) :=
    StealthReach.tail
      (StealthReach.tail
        (StealthReach.tail (StealthReach.refl _)
          (StealthStep.dequeue _ ((("https://a.com/").data), 0) [] (by decide)))
        (StealthStep.check _ ((("https://a.com/").data), 0) (by decide)))
      (StealthStep.finish _ ((("https://a.com/").data), 0) true
        [("https://a.com/x").data] (by decide))
  exact ⟨reach,
    (c2_at_most_one_record normalizeUrlHead ⟨[], []⟩ 1 [("https://a.com/").data] _
      reach).1 (("https://a.com/").data)⟩
